import Mathlib

/-!
Verification of the row-window data engine of `leptos-struct-table`.

The crate root (`src/lib.rs`) defines `ColumnSort` with `as_class` and
`as_sql`; these are embedded directly.  The remaining components of the
engine (reload controller, row-window cache, display strategies, sort-state
toggling, selection state) live in modules whose sources are not part of the
excerpt, so they are modelled from the design document and verified against
its stated properties.
-/

namespace StructTable

/-- `ColumnSort` from `src/lib.rs`: the sorting of a column. -/
inductive ColumnSort where
  | Ascending
  | Descending
  | None
deriving DecidableEq, Repr

/-- `ColumnSort::as_class` from `src/lib.rs`: the default class name. -/
def ColumnSort.as_class : ColumnSort → String
  | ColumnSort.Ascending => "sort-asc"
  | ColumnSort.Descending => "sort-desc"
  | _ => ""

/-- `ColumnSort::as_sql` from `src/lib.rs`: the SQL sort order (`ASC` or
`DESC`) or `none` for `ColumnSort::None`. -/
def ColumnSort.as_sql : ColumnSort → Option String
  | ColumnSort.Ascending => some "ASC"
  | ColumnSort.Descending => some "DESC"
  | _ => none

/-- Modelled from the spec: the Pagination display strategy (module
`display_strategy` is not in the excerpt).  `Window = [page * pageSize,
min((page + 1) * pageSize, rowCount))`. -/
def paginationWindow (page pageSize rowCount : Nat) : Nat × Nat :=
  (page * pageSize, min ((page + 1) * pageSize) rowCount)

/-- Modelled from the spec: total page count `ceil(rowCount / pageSize)` of
the Pagination display strategy. -/
def pageCount (rowCount pageSize : Nat) : Nat :=
  (rowCount + pageSize - 1) / pageSize

/-- Modelled from the spec: the per-column direction cycle used by both
single- and multi-column sorting — ascending, then descending, then none. -/
def cycleSort : ColumnSort → ColumnSort
  | ColumnSort.Ascending => ColumnSort.Descending
  | ColumnSort.Descending => ColumnSort.None
  | ColumnSort.None => ColumnSort.Ascending

/-- Modelled from the spec: single-column `toggle(column)` of the Sort State
(the header-click handler lives in the `components` module, not in the
excerpt).  The state is `none` when unsorted, otherwise the sorted column
together with its direction; a direction reaching `ColumnSort.None` drops
the entry. -/
def toggle (state : Option (Nat × ColumnSort)) (col : Nat) :
    Option (Nat × ColumnSort) :=
  match state with
  | some (c, s) =>
    if c = col then
      match cycleSort s with
      | ColumnSort.None => none
      | s2 => some (col, s2)
    else some (col, ColumnSort.Ascending)
  | none => some (col, ColumnSort.Ascending)

/-- Modelled from the spec: multi-column `toggleMulti(column)` — the same
per-column cycle, updating the column's entry in priority order without
clearing other columns; a column whose direction reaches none is removed
from the ordered sequence, and an absent column is appended ascending. -/
def toggleMulti (state : List (Nat × ColumnSort)) (col : Nat) :
    List (Nat × ColumnSort) :=
  if state.any (fun p => p.1 = col) then
    (state.map (fun p => if p.1 = col then (p.1, cycleSort p.2) else p)).filter
      (fun p => p.2 ≠ ColumnSort.None)
  else state ++ [(col, ColumnSort.Ascending)]

/-- Modelled from the spec: the Reload Controller, a monotonically
increasing `ReloadVersion` counter (module `reload_controller` is not in
the excerpt). -/
structure ReloadController where
  version : Nat
deriving DecidableEq, Repr

/-- Modelled from the spec: `invalidate()` increments the `ReloadVersion`. -/
def ReloadController.invalidate (rc : ReloadController) : ReloadController :=
  ⟨rc.version + 1⟩

/-- Modelled from the spec: the engine wiring that applies a sort-state
update and calls `Reload Controller.invalidate()` exactly when the
content of the Sort State changed.  Returns the updated controller
together with the number of `invalidate()` calls issued. -/
def applySortUpdate {α : Type} [DecidableEq α] (rc : ReloadController)
    (old new_ : α) : ReloadController × Nat :=
  if new_ = old then (rc, 0) else (rc.invalidate, 1)

/-- Modelled from the spec: the per-index classification returned by the Row
Window Cache's `get` — `Hit` (with the row and the version it was fetched
at), `Pending` (fetch in flight, started at the given version), or `Miss`
(module `loaded_rows` is not in the excerpt).  Rows are modelled as `Nat`. -/
inductive LookupResult where
  | Hit (row : Nat) (ver : Nat)
  | Pending (ver : Nat)
  | Miss
deriving DecidableEq, Repr

/-- The version an entry is tagged with, if any. -/
def entryVer : LookupResult → Option Nat
  | LookupResult.Hit _ v => some v
  | LookupResult.Pending v => some v
  | LookupResult.Miss => none

/-- Whether a lookup result is a `Miss`. -/
def isMiss : LookupResult → Bool
  | LookupResult.Miss => true
  | _ => false

/-- Modelled from the spec: the Row Window Cache state — the current
`ReloadVersion` plus entries keyed by absolute row index. -/
structure CacheState where
  version : Nat
  entries : Nat → LookupResult

/-- Modelled from the spec: the scanner inside `ensure` that walks the
window left to right, coalescing adjacent missing indices.  `cur` is the
currently open run `(start, length)` of `Miss` indices; each completed run
becomes one `fetchRows` provider call `(start, length)`. -/
def ensureGo (f : Nat → LookupResult) :
    Nat → Nat → Option (Nat × Nat) → List (Nat × Nat)
  | _, 0, none => []
  | _, 0, some run => [run]
  | pos, rem + 1, cur =>
    match isMiss (f pos), cur with
    | true, none => ensureGo f (pos + 1) rem (some (pos, 1))
    | true, some (s, l) => ensureGo f (pos + 1) rem (some (s, l + 1))
    | false, none => ensureGo f (pos + 1) rem none
    | false, some run => run :: ensureGo f (pos + 1) rem none

/-- Modelled from the spec: the provider calls `ensure([start, start+len))`
issues — one per maximal contiguous sub-range of `Miss` entries. -/
def missRuns (f : Nat → LookupResult) (start len : Nat) : List (Nat × Nat) :=
  ensureGo f start len none

/-- Modelled from the spec: the cache-state effect of
`ensure([start, start+len))` — every `Miss` index of the window becomes
`Pending` at the current version; provider calls are `missRuns`. -/
def ensure (st : CacheState) (start len : Nat) :
    CacheState × List (Nat × Nat) :=
  (⟨st.version,
    fun i =>
      if start ≤ i ∧ i < start + len ∧ isMiss (st.entries i) then
        LookupResult.Pending st.version
      else st.entries i⟩,
   missRuns st.entries start len)

/-- Modelled from the spec: `onFetchResult(window, version, rows)` installs
the rows as entries tagged with `version` only if `version` equals the
current `ReloadVersion`; stale results are silently dropped. -/
def onFetchResult (st : CacheState) (start : Nat) (rows : List Nat)
    (ver : Nat) : CacheState :=
  if ver = st.version then
    ⟨st.version,
     fun i =>
       if start ≤ i ∧ i < start + rows.length then
         LookupResult.Hit (rows.getD (i - start) 0) ver
       else st.entries i⟩
  else st

/-- Modelled from the spec: the Reload Controller's `invalidate()` as seen
by the cache — increments the `ReloadVersion` and clears all entries. -/
def CacheState.invalidate (st : CacheState) : CacheState :=
  ⟨st.version + 1, fun _ => LookupResult.Miss⟩

/-- Modelled from the spec: `evict(keep)` removes entries whose index lies
outside `keep = [keepStart, keepEnd)` extended by the retention margin. -/
def evict (st : CacheState) (keepStart keepEnd margin : Nat) : CacheState :=
  ⟨st.version,
   fun i =>
     if keepStart - margin ≤ i ∧ i < keepEnd + margin then st.entries i
     else LookupResult.Miss⟩

/-- Modelled from the spec: the events that reach the Row Window Cache on
the single-threaded event loop — an `ensure` marking a window pending, an
asynchronous fetch result arriving, and an `invalidate()`. -/
inductive CacheEvent where
  | markPending (start len : Nat)
  | fetchResult (start : Nat) (rows : List Nat) (ver : Nat)
  | invalidate
deriving Repr

/-- One step of the cache's event loop. -/
def stepCache (st : CacheState) : CacheEvent → CacheState
  | CacheEvent.markPending start len => (ensure st start len).1
  | CacheEvent.fetchResult start rows ver => onFetchResult st start rows ver
  | CacheEvent.invalidate => st.invalidate

/-- Run a sequence of cache events from a starting state. -/
def runCache (st : CacheState) (events : List CacheEvent) : CacheState :=
  events.foldl stepCache st

/-- Modelled from the spec: one step of the Infinite Scroll display
strategy.  When the scroll position crosses the trailing threshold near the
current end and more rows remain, the window end grows by the page size;
otherwise it is unchanged.  The window start is always `0`. -/
def infiniteScrollStep (pageSize rowCount threshold : Nat)
    (endIndex pos : Nat) : Nat :=
  if endIndex < rowCount ∧ endIndex ≤ pos + threshold then
    endIndex + pageSize
  else endIndex

/-- Modelled from the spec: the Infinite Scroll window after a sequence of
scroll positions. -/
def infiniteScrollRun (pageSize rowCount threshold endIndex : Nat)
    (events : List Nat) : Nat :=
  events.foldl (infiniteScrollStep pageSize rowCount threshold) endIndex

/-- Modelled from the spec: the selection mode — off, single or multiple
(module `selection` is not in the excerpt). -/
inductive SelectionMode where
  | Off
  | Single
  | Multiple
deriving DecidableEq, Repr

/-- Modelled from the spec: the Selection State — a mode together with the
set of selected row identities (identities modelled as `Nat`). -/
structure SelectionState where
  mode : SelectionMode
  selected : Finset Nat
deriving DecidableEq

/-- Modelled from the spec: the selection mutation operations `select`,
`deselect`, `toggle`, `clear` and `selectAll`. -/
inductive SelOp where
  | select (i : Nat)
  | deselect (i : Nat)
  | toggleSel (i : Nat)
  | clear
  | selectAll (ids : Finset Nat)

/-- Modelled from the spec: applying one selection operation.  Under `Off`
every mutation attempt is a no-op; under `Single`, `select` replaces any
existing selection and `selectAll` (only available under `Multiple`) is a
no-op; under `Multiple` the operations act on the full set. -/
def applySel (st : SelectionState) (op : SelOp) : SelectionState :=
  match st.mode with
  | SelectionMode.Off => st
  | SelectionMode.Single =>
    match op with
    | SelOp.select i => ⟨st.mode, {i}⟩
    | SelOp.deselect i => ⟨st.mode, st.selected.erase i⟩
    | SelOp.toggleSel i =>
      ⟨st.mode, if i ∈ st.selected then st.selected.erase i else {i}⟩
    | SelOp.clear => ⟨st.mode, ∅⟩
    | SelOp.selectAll _ => st
  | SelectionMode.Multiple =>
    match op with
    | SelOp.select i => ⟨st.mode, insert i st.selected⟩
    | SelOp.deselect i => ⟨st.mode, st.selected.erase i⟩
    | SelOp.toggleSel i =>
      ⟨st.mode,
       if i ∈ st.selected then st.selected.erase i else insert i st.selected⟩
    | SelOp.clear => ⟨st.mode, ∅⟩
    | SelOp.selectAll ids => ⟨st.mode, ids⟩

/-- Modelled from the spec: applying a sequence of selection operations. -/
def applySelList (st : SelectionState) (ops : List SelOp) : SelectionState :=
  ops.foldl applySel st

/-- The selection-state invariant from the spec: under `Single` at most one
row is selected; under `Off` the selection is empty. -/
def SelInv (st : SelectionState) : Prop :=
  (st.mode = SelectionMode.Single → st.selected.card ≤ 1) ∧
  (st.mode = SelectionMode.Off → st.selected = ∅)

/-- Whether index `start + j` begins a maximal contiguous run of `Miss`
entries: it is a `Miss` and either sits at the scan origin (where
`prevMiss` records whether the entry just before the origin was a `Miss`)
or follows a non-`Miss` entry. -/
def runStartP (f : Nat → LookupResult) (start : Nat) (prevMiss : Bool)
    (j : Nat) : Bool :=
  isMiss (f (start + j)) &&
    (if j = 0 then !prevMiss else !isMiss (f (start + j - 1)))

/-- The number of maximal contiguous sub-ranges of `Miss` entries in the
window `[start, start + len)`: each such sub-range is counted once, at its
first index. -/
def missRunStarts (f : Nat → LookupResult) (start len : Nat) : Nat :=
  (List.range len).countP (runStartP f start false)

/-- The version-consistency invariant of the cache: every entry that is
tagged with a version (a `Hit` or a `Pending`) is tagged with the current
`ReloadVersion`. -/
def TaggedCur (st : CacheState) : Prop :=
  ∀ i v, entryVer (st.entries i) = some v → v = st.version

/-! ## Helper lemmas -/

/-- The per-column cycle never fixes a direction. -/
lemma cycleSort_ne (s : ColumnSort) : cycleSort s ≠ s := by
  cases s <;> decide

/-- Single-column `toggle` always changes the sort state. -/
lemma toggle_ne (state : Option (Nat × ColumnSort)) (col : Nat) :
    toggle state col ≠ state := by
  match state with
  | none => simp [toggle]
  | some (c, s) =>
    by_cases hc : c = col
    · subst hc
      cases s <;> simp [toggle, cycleSort]
    · simp only [toggle, if_neg hc]
      intro h
      rw [Option.some_inj, Prod.mk.injEq] at h
      exact hc h.1.symm

/-- Multi-column `toggleMulti` changes the sort sequence whenever the
clicked column occurs exactly once in it. -/
lemma toggleMulti_ne (ml : List (Nat × ColumnSort)) (col : Nat)
    (d : ColumnSort) (hmem : (col, d) ∈ ml)
    (huniq : ∀ p ∈ ml, p.1 = col → p = (col, d)) :
    toggleMulti ml col ≠ ml := by
  have hany : ml.any (fun p => p.1 = col) = true := by
    rw [List.any_eq_true]
    exact ⟨(col, d), hmem, by simp⟩
  unfold toggleMulti
  rw [if_pos hany]
  intro heq
  have hd : (col, d) ∈
      (ml.map (fun p => if p.1 = col then (p.1, cycleSort p.2) else p)).filter
        (fun p => p.2 ≠ ColumnSort.None) := by
    rw [heq]
    exact hmem
  rw [List.mem_filter, List.mem_map] at hd
  obtain ⟨⟨p, hp, hgp⟩, _⟩ := hd
  by_cases hpc : p.1 = col
  · have hpd : p = (col, d) := huniq p hp hpc
    subst hpd
    rw [if_pos hpc] at hgp
    have : cycleSort d = d := congrArg Prod.snd hgp
    exact cycleSort_ne d this
  · rw [if_neg hpc] at hgp
    exact hpc (congrArg Prod.fst hgp)

/-- Multi-column `toggleMulti` changes the sort sequence for every clicked
column — present (cycled or removed) or absent (appended ascending) —
provided column keys occur at most once in the sequence. -/
lemma toggleMulti_ne_wf (ml : List (Nat × ColumnSort)) (col : Nat)
    (hwf : ∀ p ∈ ml, ∀ q ∈ ml, p.1 = q.1 → p = q) :
    toggleMulti ml col ≠ ml := by
  by_cases hany : ml.any (fun p => p.1 = col) = true
  · rw [List.any_eq_true] at hany
    obtain ⟨p, hp, hpc⟩ := hany
    have hpc' : p.1 = col := by simpa using hpc
    have hpcol : p = (col, p.2) := by
      rw [← hpc']
    refine toggleMulti_ne ml col p.2 (by rw [← hpcol]; exact hp) ?_
    intro q hq hqc
    have hqp : q = p := hwf q hq p hp (hqc.trans hpc'.symm)
    rw [hqp]
    exact hpcol
  · unfold toggleMulti
    rw [if_neg hany]
    intro heq
    have hlen := congrArg List.length heq
    simp at hlen

/-- Shifting the run-start predicate by one position: position `j + 1` of a
scan from `pos` starts a run exactly when position `j` of a scan from
`pos + 1` does, where the shifted scan remembers whether `f pos` missed. -/
lemma runStartP_succ (f : Nat → LookupResult) (pos : Nat) (b : Bool)
    (j : Nat) :
    runStartP f pos b (j + 1) = runStartP f (pos + 1) (isMiss (f pos)) j := by
  unfold runStartP
  cases j with
  | zero => simp
  | succ k =>
    have h1 : pos + (k + 1 + 1) = pos + 1 + (k + 1) := by omega
    rw [h1]
    simp

/-- Peeling the first scan position off the run-start count. -/
lemma countP_range_succ (f : Nat → LookupResult) (pos n : Nat) (b : Bool) :
    (List.range (n + 1)).countP (runStartP f pos b) =
      (List.range n).countP (runStartP f (pos + 1) (isMiss (f pos))) +
        (if runStartP f pos b 0 then 1 else 0) := by
  rw [List.range_succ_eq_map, List.countP_cons, List.countP_map]
  have hfun : (runStartP f pos b) ∘ Nat.succ =
      runStartP f (pos + 1) (isMiss (f pos)) := by
    funext j
    exact runStartP_succ f pos b j
  rw [hfun]

/-- The scanner inside `ensure` emits one provider call per maximal
contiguous run of `Miss` entries: its output length is the number of
run-starting positions, plus one for the currently open run. -/
lemma ensureGo_length (f : Nat → LookupResult) :
    ∀ (rem pos : Nat) (cur : Option (Nat × Nat)),
      (ensureGo f pos rem cur).length =
        (List.range rem).countP (runStartP f pos cur.isSome) +
          (if cur.isSome then 1 else 0) := by
  intro rem
  induction rem with
  | zero =>
    intro pos cur
    rcases cur with _ | ⟨s, l⟩ <;> simp [ensureGo]
  | succ n ih =>
    intro pos cur
    rcases cur with _ | ⟨s, l⟩ <;> cases hm : isMiss (f pos)
    · simp only [ensureGo, hm]
      rw [ih (pos + 1) none, countP_range_succ f pos n none.isSome]
      simp [runStartP, hm]
    · simp only [ensureGo, hm]
      rw [ih (pos + 1) (some (pos, 1)),
        countP_range_succ f pos n none.isSome]
      simp [runStartP, hm]
    · simp only [ensureGo, hm, List.length_cons]
      rw [ih (pos + 1) none, countP_range_succ f pos n (some (s, l)).isSome]
      simp [runStartP, hm]
    · simp only [ensureGo, hm]
      rw [ih (pos + 1) (some (s, l + 1)),
        countP_range_succ f pos n (some (s, l)).isSome]
      simp [runStartP, hm]

/-- A scan over a window with no `Miss` entry issues no provider calls. -/
lemma ensureGo_nil (f : Nat → LookupResult) :
    ∀ (len pos : Nat), (∀ j, j < len → isMiss (f (pos + j)) = false) →
      ensureGo f pos len none = [] := by
  intro len
  induction len with
  | zero =>
    intro pos _
    rfl
  | succ n ih =>
    intro pos h
    have h0 : isMiss (f pos) = false := by
      have := h 0 (Nat.succ_pos n)
      simpa using this
    simp only [ensureGo, h0]
    refine ih (pos + 1) (fun j hj => ?_)
    have h2 : pos + 1 + j = pos + (j + 1) := by omega
    rw [h2]
    exact h (j + 1) (by omega)

/-- After `ensure`, no index of the ensured window is a `Miss`. -/
lemma ensure_no_miss (st : CacheState) (start len j : Nat) (hj : j < len) :
    isMiss ((ensure st start len).1.entries (start + j)) = false := by
  simp only [ensure]
  split
  · rfl
  · rename_i hcon
    by_cases hm : isMiss (st.entries (start + j))
    · exact absurd ⟨Nat.le_add_right _ _, by omega, hm⟩ hcon
    · simpa using hm

/-- Each cache event preserves the version-consistency invariant. -/
lemma stepCache_tagged (st : CacheState) (e : CacheEvent)
    (h : TaggedCur st) : TaggedCur (stepCache st e) := by
  cases e with
  | markPending start len =>
    intro i v hv
    simp only [stepCache, ensure] at hv ⊢
    revert hv
    split
    · intro hv
      simp only [entryVer, Option.some_inj] at hv
      exact hv.symm
    · intro hv
      exact h i v hv
  | fetchResult start rows ver =>
    intro i v hv
    by_cases hver : ver = st.version
    · simp only [stepCache, onFetchResult, if_pos hver] at hv ⊢
      revert hv
      split
      · intro hv
        simp only [entryVer, Option.some_inj] at hv
        rw [← hv]
        exact hver
      · intro hv
        exact h i v hv
    · simp only [stepCache, onFetchResult, if_neg hver] at hv ⊢
      exact h i v hv
  | invalidate =>
    intro i v hv
    simp [CacheState.invalidate, stepCache, entryVer] at hv

/-- Any sequence of cache events preserves the invariant. -/
lemma runCache_tagged (events : List CacheEvent) (st : CacheState)
    (h : TaggedCur st) : TaggedCur (runCache st events) := by
  induction events generalizing st with
  | nil => exact h
  | cons e rest ih => exact ih (stepCache st e) (stepCache_tagged st e h)

/-- Applying a selection operation never changes the selection mode. -/
lemma applySel_mode (st : SelectionState) (op : SelOp) :
    (applySel st op).mode = st.mode := by
  obtain ⟨m, sel⟩ := st
  cases m <;> cases op <;> rfl

/-- One selection operation preserves the selection-state invariant. -/
lemma applySel_inv (st : SelectionState) (op : SelOp) (h : SelInv st) :
    SelInv (applySel st op) := by
  obtain ⟨m, sel⟩ := st
  obtain ⟨h1, h2⟩ := h
  cases m with
  | Off => exact ⟨h1, h2⟩
  | Single =>
    have hc : sel.card ≤ 1 := h1 rfl
    cases op with
    | select i =>
      refine ⟨fun _ => ?_, fun hO => nomatch hO⟩
      simp [applySel]
    | deselect i =>
      refine ⟨fun _ => ?_, fun hO => nomatch hO⟩
      exact Nat.le_trans Finset.card_erase_le hc
    | toggleSel i =>
      refine ⟨fun _ => ?_, fun hO => nomatch hO⟩
      by_cases hi : i ∈ sel
      · simp only [applySel, if_pos hi]
        exact Nat.le_trans Finset.card_erase_le hc
      · simp [applySel, hi]
    | clear =>
      refine ⟨fun _ => ?_, fun hO => nomatch hO⟩
      simp [applySel]
    | selectAll ids => exact ⟨fun _ => hc, fun hO => nomatch hO⟩
  | Multiple =>
    cases op with
    | select i => exact ⟨(fun hS => nomatch hS), (fun hO => nomatch hO)⟩
    | deselect i => exact ⟨(fun hS => nomatch hS), (fun hO => nomatch hO)⟩
    | toggleSel i => exact ⟨(fun hS => nomatch hS), (fun hO => nomatch hO)⟩
    | clear => exact ⟨(fun hS => nomatch hS), (fun hO => nomatch hO)⟩
    | selectAll ids =>
      exact ⟨(fun hS => nomatch hS), (fun hO => nomatch hO)⟩

/-- A sequence of selection operations preserves the invariant. -/
lemma applySelList_inv (ops : List SelOp) (st : SelectionState)
    (h : SelInv st) : SelInv (applySelList st ops) := by
  induction ops generalizing st with
  | nil => exact h
  | cons op rest ih => exact ih (applySel st op) (applySel_inv st op h)

/-! ## Claim theorems -/

/-- C9: for every `ColumnSort` value `s`, `as_sql s` is `some "ASC"` for
`Ascending`, `some "DESC"` for `Descending`, and `none` exactly when `s` is
`ColumnSort.None`. -/
theorem as_sql_spec :
    ColumnSort.as_sql ColumnSort.Ascending = some "ASC" ∧
    ColumnSort.as_sql ColumnSort.Descending = some "DESC" ∧
    ∀ s, ColumnSort.as_sql s = none ↔ s = ColumnSort.None := by
  refine ⟨rfl, rfl, fun s => ?_⟩
  cases s <;> simp [ColumnSort.as_sql]

/-- C10: `as_class` is total, returning `"sort-asc"`, `"sort-desc"` and
`""` respectively, and `as_class s` is non-empty exactly when `as_sql s` is
`some`. -/
theorem as_class_spec :
    (ColumnSort.as_class ColumnSort.Ascending = "sort-asc" ∧
     ColumnSort.as_class ColumnSort.Descending = "sort-desc" ∧
     ColumnSort.as_class ColumnSort.None = "") ∧
    ∀ s, ColumnSort.as_class s ≠ "" ↔ (ColumnSort.as_sql s).isSome := by
  refine ⟨⟨rfl, rfl, rfl⟩, fun s => ?_⟩
  cases s <;> decide

/-- C8: in single-column mode, `toggle(column)` on an unsorted state or a
state sorted by a different column yields ascending by that column, and
three toggles on the same column cycle ascending, descending, none, back to
the unsorted state. -/
theorem toggle_spec (col c : Nat) (s : ColumnSort) (hne : c ≠ col) :
    toggle none col = some (col, ColumnSort.Ascending) ∧
    toggle (some (c, s)) col = some (col, ColumnSort.Ascending) ∧
    toggle (toggle (toggle none col) col) col = none := by
  refine ⟨rfl, ?_, ?_⟩
  · simp only [toggle]
    rw [if_neg hne]
  · simp [toggle, cycleSort]

/-- Witness for C8 at column 5 with a state sorted by column 3. -/
theorem toggle_spec_witness :
    toggle none 5 = some (5, ColumnSort.Ascending) ∧
    toggle (some (3, ColumnSort.Ascending)) 5 =
      some (5, ColumnSort.Ascending) ∧
    toggle (toggle (toggle none 5) 5) 5 = none :=
  toggle_spec 5 3 ColumnSort.Ascending (by decide)

/-- C5: the Pagination strategy computes the window
`[page * pageSize, min((page + 1) * pageSize, rowCount))` and the page
count is the ceiling of `rowCount / pageSize` (characterized as the least
`n` with `rowCount ≤ n * pageSize`); with `pageSize = 25` and
`rowCount = 53`, page 2 yields `[50, 53)` and 3 pages. -/
theorem pagination_spec (page pageSize rowCount : Nat) (hp : 0 < pageSize) :
    paginationWindow page pageSize rowCount =
      (page * pageSize, min ((page + 1) * pageSize) rowCount) ∧
    (∀ n, pageCount rowCount pageSize ≤ n ↔ rowCount ≤ n * pageSize) ∧
    paginationWindow 2 25 53 = (50, 53) ∧ pageCount 53 25 = 3 := by
  refine ⟨rfl, fun n => ?_, by decide, by decide⟩
  unfold pageCount
  rw [Nat.div_le_iff_le_mul_add_pred hp, Nat.mul_comm pageSize n]
  generalize n * pageSize = q
  omega

/-- Witness for C5 at page 2, `pageSize = 25`, `rowCount = 53`. -/
theorem pagination_spec_witness :
    paginationWindow 2 25 53 = (50, 53) ∧ pageCount 53 25 = 3 :=
  ⟨(pagination_spec 2 25 53 (by decide)).2.2.1,
   (pagination_spec 2 25 53 (by decide)).2.2.2⟩

/-- C6: after `evict(keep)`, every index outside `keep` extended by the
retention margin reads `Miss`, and every index inside `keep` that was `Hit`
before still reads the same `Hit` entry. -/
theorem evict_spec (st : CacheState) (keepStart keepEnd margin i : Nat) :
    (i < keepStart - margin ∨ keepEnd + margin ≤ i →
      (evict st keepStart keepEnd margin).entries i = LookupResult.Miss) ∧
    (keepStart ≤ i → i < keepEnd → ∀ r v,
      st.entries i = LookupResult.Hit r v →
      (evict st keepStart keepEnd margin).entries i =
        LookupResult.Hit r v) := by
  constructor
  · intro h
    simp only [evict]
    rw [if_neg]
    omega
  · intro h1 h2 r v hrv
    simp only [evict]
    rw [if_pos]
    · exact hrv
    · omega

/-- Witness for C6: keep `[10, 20)` with margin 2 over a cache holding
`Hit 7` everywhere — index 30 becomes `Miss`, index 15 keeps its entry. -/
theorem evict_spec_witness :
    (evict ⟨0, fun _ => LookupResult.Hit 7 0⟩ 10 20 2).entries 30 =
      LookupResult.Miss ∧
    (evict ⟨0, fun _ => LookupResult.Hit 7 0⟩ 10 20 2).entries 15 =
      LookupResult.Hit 7 0 :=
  ⟨(evict_spec ⟨0, fun _ => LookupResult.Hit 7 0⟩ 10 20 2 30).1 (by omega),
   (evict_spec ⟨0, fun _ => LookupResult.Hit 7 0⟩ 10 20 2 15).2
     (by omega) (by omega) 7 0 rfl⟩

/-- C4: applying a single- or multi-column sort toggle always changes the
sort state's content — for `toggleMulti` on any column, present (cycled or
removed) or absent (appended), as long as column keys are unique — and
makes the engine issue exactly one `invalidate()`, advancing the version by
one; an update that leaves the content unchanged issues none. -/
theorem sort_invalidate_spec (rc : ReloadController)
    (st : Option (Nat × ColumnSort)) (ml : List (Nat × ColumnSort))
    (col : Nat) (hwf : ∀ p ∈ ml, ∀ q ∈ ml, p.1 = q.1 → p = q) :
    (applySortUpdate rc st (toggle st col)).2 = 1 ∧
    (applySortUpdate rc st (toggle st col)).1.version = rc.version + 1 ∧
    (applySortUpdate rc ml (toggleMulti ml col)).2 = 1 ∧
    (applySortUpdate rc ml (toggleMulti ml col)).1.version =
      rc.version + 1 ∧
    (∀ st2 : Option (Nat × ColumnSort), st2 = st →
      (applySortUpdate rc st st2).2 = 0 ∧
      (applySortUpdate rc st st2).1.version = rc.version) := by
  refine ⟨?_, ?_, ?_, ?_, ?_⟩
  · simp [applySortUpdate, toggle_ne st col]
  · simp [applySortUpdate, toggle_ne st col, ReloadController.invalidate]
  · simp [applySortUpdate, toggleMulti_ne_wf ml col hwf]
  · simp [applySortUpdate, toggleMulti_ne_wf ml col hwf,
      ReloadController.invalidate]
  · intro st2 h
    simp [applySortUpdate, h]

/-- Witness for C4: toggling column 3 from the unsorted single-column
state, toggling the present column 3 and the absent column 7 of the
multi-column sequence `[(3, Ascending)]` each issue one `invalidate()`;
re-submitting the unchanged state issues none. -/
theorem sort_invalidate_spec_witness :
    (applySortUpdate ⟨0⟩ (none : Option (Nat × ColumnSort))
      (toggle none 3)).2 = 1 ∧
    (applySortUpdate ⟨0⟩ [(3, ColumnSort.Ascending)]
      (toggleMulti [(3, ColumnSort.Ascending)] 3)).2 = 1 ∧
    (applySortUpdate ⟨0⟩ [(3, ColumnSort.Ascending)]
      (toggleMulti [(3, ColumnSort.Ascending)] 7)).2 = 1 ∧
    (applySortUpdate ⟨0⟩ (none : Option (Nat × ColumnSort)) none).2 = 0 := by
  obtain ⟨h1, _, h3, _, h5⟩ :=
    sort_invalidate_spec ⟨0⟩ none [(3, ColumnSort.Ascending)] 3 (by decide)
  obtain ⟨_, _, h3b, _, _⟩ :=
    sort_invalidate_spec ⟨0⟩ none [(3, ColumnSort.Ascending)] 7 (by decide)
  exact ⟨h1, h3, h3b, (h5 none rfl).1⟩

/-- C7: under Infinite Scroll the window start is always `0` and the end
never decreases over any sequence of scroll events; crossing the trailing
threshold while rows remain grows the end by exactly the page size, and
once `rowCount ≤ end` the end is frozen; from `[0, 20)` with page size 20,
crossing the threshold near index 18 yields `[0, 40)`. -/
theorem infinite_scroll_spec (pageSize rowCount threshold endIndex : Nat)
    (events : List Nat) :
    endIndex ≤ infiniteScrollRun pageSize rowCount threshold endIndex events ∧
    (∀ pos, rowCount ≤ endIndex →
      infiniteScrollStep pageSize rowCount threshold endIndex pos =
        endIndex) ∧
    (∀ pos, endIndex < rowCount → endIndex ≤ pos + threshold →
      infiniteScrollStep pageSize rowCount threshold endIndex pos =
        endIndex + pageSize) ∧
    infiniteScrollStep 20 1000 2 20 18 = 40 := by
  refine ⟨?_, ?_, ?_, by decide⟩
  · induction events generalizing endIndex with
    | nil => exact Nat.le_refl _
    | cons pos rest ih =>
      refine Nat.le_trans ?_ (ih (infiniteScrollStep pageSize rowCount threshold endIndex pos))
      unfold infiniteScrollStep
      split
      · exact Nat.le_add_right _ _
      · exact Nat.le_refl _
  · intro pos h
    unfold infiniteScrollStep
    rw [if_neg]
    omega
  · intro pos h1 h2
    unfold infiniteScrollStep
    rw [if_pos ⟨h1, h2⟩]

/-- Witness for C7: the scenario-D step and freezing at the row count. -/
theorem infinite_scroll_spec_witness :
    20 ≤ infiniteScrollRun 20 1000 2 20 [18, 5] ∧
    infiniteScrollStep 20 1000 2 20 18 = 40 ∧
    infiniteScrollStep 20 40 2 40 39 = 40 := by
  obtain ⟨h1, _, h3, h4⟩ := infinite_scroll_spec 20 1000 2 20 [18, 5]
  refine ⟨h1, h4, ?_⟩
  exact (infinite_scroll_spec 20 40 2 40 []).2.1 39 (by decide)

/-- C3: over any sequence of selection operations the invariant holds —
under `Single` at most one row is selected after every operation and
`select` replaces the existing selection; under `Off` the selection stays
empty because every mutation attempt is a no-op. -/
theorem selection_spec (ops : List SelOp) (st : SelectionState) (i : Nat)
    (hInv : SelInv st) :
    SelInv (applySelList st ops) ∧
    (st.mode = SelectionMode.Single →
      (applySel st (SelOp.select i)).selected = {i}) ∧
    (st.mode = SelectionMode.Off → ∀ op : SelOp, applySel st op = st) := by
  refine ⟨applySelList_inv ops st hInv, fun hS => ?_, fun hO => ?_⟩
  · obtain ⟨m, sel⟩ := st
    cases hS
    rfl
  · obtain ⟨m, sel⟩ := st
    cases hO
    intro op
    rfl

/-- Witness for C3: two selects under `Single` keep the invariant, select
replaces, and `clear` under `Off` is a no-op. -/
theorem selection_spec_witness :
    SelInv (applySelList ⟨SelectionMode.Single, ∅⟩
      [SelOp.select 1, SelOp.select 2]) ∧
    (applySel ⟨SelectionMode.Single, ∅⟩ (SelOp.select 5)).selected = {5} ∧
    applySel ⟨SelectionMode.Off, ∅⟩ SelOp.clear =
      ⟨SelectionMode.Off, ∅⟩ := by
  obtain ⟨h1, h2, _⟩ :=
    selection_spec [SelOp.select 1, SelOp.select 2]
      ⟨SelectionMode.Single, ∅⟩ 5 ⟨(fun _ => by simp), (fun h => nomatch h)⟩
  obtain ⟨_, _, h3⟩ :=
    selection_spec [] ⟨SelectionMode.Off, ∅⟩ 0
      ⟨(fun h => nomatch h), (fun _ => rfl)⟩
  exact ⟨h1, h2 rfl, h3 rfl SelOp.clear⟩

/-- C2: `ensure(W)` issues exactly as many `fetchRows` calls as there are
maximal contiguous sub-ranges of `Miss` entries in `W` (counted at their
starting indices), and a repeated `ensure(W)` — with those fetches now
pending — issues no further calls. -/
theorem ensure_coalescing (st : CacheState) (start len : Nat) :
    (ensure st start len).2.length = missRunStarts st.entries start len ∧
    (ensure (ensure st start len).1 start len).2 = [] := by
  constructor
  · have h := ensureGo_length st.entries len start none
    simpa [ensure, missRuns, missRunStarts] using h
  · show missRuns (ensure st start len).1.entries start len = []
    exact ensureGo_nil _ len start
      (fun j hj => ensure_no_miss st start len j hj)

/-- A concrete check of the coalescing scanner: with `Hit` entries at
indices 2 and 5 and `Miss` elsewhere, ensuring `[0, 7)` issues the three
calls `[0, 2)`, `[3, 5)` and `[6, 7)`. -/
lemma missRuns_example :
    missRuns
      (fun i =>
        if i = 2 ∨ i = 5 then LookupResult.Hit 0 0 else LookupResult.Miss)
      0 7 = [(0, 2), (3, 2), (6, 1)] := by
  decide

/-- C1: over any sequence of cache events, every entry (pending or hit) is
tagged with the current `ReloadVersion`; consequently once `invalidate()`
has advanced the version past `v`, a result tagged `v` arriving is not
installed (the cache is unchanged) and no cached entry tagged `v`
is observable. -/
theorem staleness_spec (st : CacheState) (events : List CacheEvent)
    (h : TaggedCur st) :
    TaggedCur (runCache st events) ∧
    (∀ start rows ver, ver ≠ (runCache st events).version →
      onFetchResult (runCache st events) start rows ver =
        runCache st events) ∧
    (∀ i r v, v < (runCache st events).version →
      (runCache st events).entries i ≠ LookupResult.Hit r v) := by
  have hrun := runCache_tagged events st h
  refine ⟨hrun, fun start rows ver hne => ?_, fun i r v hlt hEq => ?_⟩
  · unfold onFetchResult
    rw [if_neg hne]
  · have hv := hrun i v (by rw [hEq]; rfl)
    omega

/-- Witness for C1, scenario C: starting at version 1 with a fetch marked
pending, `invalidate()` bumps the version to 2, a second fetch is issued,
the version-2 result arrives, and the version-1 result arrives last — the
invariant holds at the final state and index 0 does not carry the stale
version-1 row. -/
theorem staleness_spec_witness :
    TaggedCur (runCache ⟨1, fun _ => LookupResult.Miss⟩
      [CacheEvent.markPending 0 3, CacheEvent.invalidate,
       CacheEvent.markPending 0 3,
       CacheEvent.fetchResult 0 [10, 11, 12] 2,
       CacheEvent.fetchResult 0 [20, 21, 22] 1]) ∧
    (runCache ⟨1, fun _ => LookupResult.Miss⟩
      [CacheEvent.markPending 0 3, CacheEvent.invalidate,
       CacheEvent.markPending 0 3,
       CacheEvent.fetchResult 0 [10, 11, 12] 2,
       CacheEvent.fetchResult 0 [20, 21, 22] 1]).entries 0 ≠
      LookupResult.Hit 20 1 := by
  have h0 : TaggedCur ⟨1, fun _ => LookupResult.Miss⟩ :=
    fun i v hv => nomatch hv
  refine ⟨(staleness_spec _ _ h0).1, (staleness_spec _ _ h0).2.2 0 20 1 ?_⟩
  decide

/-- Scenario C concretely: after the events above the final cache holds
only version-2 entries in the fetched window and `Miss` elsewhere; the
stale version-1 result was dropped on arrival. -/
lemma scenarioC_entries :
    ((runCache ⟨1, fun _ => LookupResult.Miss⟩
      [CacheEvent.markPending 0 3, CacheEvent.invalidate,
       CacheEvent.markPending 0 3,
       CacheEvent.fetchResult 0 [10, 11, 12] 2,
       CacheEvent.fetchResult 0 [20, 21, 22] 1]).entries 0 =
        LookupResult.Hit 10 2 ∧
     (runCache ⟨1, fun _ => LookupResult.Miss⟩
      [CacheEvent.markPending 0 3, CacheEvent.invalidate,
       CacheEvent.markPending 0 3,
       CacheEvent.fetchResult 0 [10, 11, 12] 2,
       CacheEvent.fetchResult 0 [20, 21, 22] 1]).entries 2 =
        LookupResult.Hit 12 2 ∧
     (runCache ⟨1, fun _ => LookupResult.Miss⟩
      [CacheEvent.markPending 0 3, CacheEvent.invalidate,
       CacheEvent.markPending 0 3,
       CacheEvent.fetchResult 0 [10, 11, 12] 2,
       CacheEvent.fetchResult 0 [20, 21, 22] 1]).entries 7 =
        LookupResult.Miss) := by
  decide

end StructTable
